import Mathlib

/-!
# Verification of the DocChat-Local retrieval engine

Shallow embedding of the core of `app/utils.py`, `app/ingest.py` and
`app/rag.py`: heading-aware chunking, the SQLite metadata store, the
FAISS-backed vector index, the retriever and the prompt assembler.

Python strings are modelled as Lean `String`s; where a proof needs to look
inside a string we work on its `List Char` data.  Python `str.split()`,
`str.join`, `str.strip()` and the regex substitutions of `slugify_heading`
are modelled as explicit recursive functions over `List Char`, faithful to
their documented semantics on the ASCII range that the sources use.
Embedding vectors are modelled with `ℤ` components (the claims under
examination are about ordering, counting and alignment, which hold over any
linearly ordered score domain; floating-point rounding is out of scope).
-/

namespace DocChat

/-! ## Character-level string helpers (models of Python primitives) -/

/-- Model of Python `str.strip()` on the character list of a string:
drop leading and trailing whitespace. -/
def trimWs (l : List Char) : List Char :=
  ((l.dropWhile Char.isWhitespace).reverse.dropWhile Char.isWhitespace).reverse

/-- Helper for the model of Python `str.split()` (no separator): accumulate
the current word (in reverse) and cut at whitespace, discarding empty pieces. -/
def wordsAux : List Char → List Char → List (List Char)
  | [], acc => if acc.isEmpty then [] else [acc.reverse]
  | c :: cs, acc =>
    if c.isWhitespace then
      if acc.isEmpty then wordsAux cs [] else acc.reverse :: wordsAux cs []
    else wordsAux cs (c :: acc)

/-- Helper for the model of Python `sep.join(items)`. -/
def joinSep (sep : List Char) : List (List Char) → List Char
  | [] => []
  | [w] => w
  | w :: ws => w ++ sep ++ joinSep sep ws

/-- Model of Python `sep.join(items)`. -/
def joinWith (sep : String) (items : List String) : String :=
  String.mk (joinSep sep.data (items.map String.data))

/-! ## `app/utils.py` -/

/-- `sliding_window` body (`app/utils.py` lines 7-12): the Python generator

```
step = max(1, size - overlap)
for start in range(0, max(0, len(tokens)-1), step):
    end = min(len(tokens), start + size)
    yield start, end
    if end == len(tokens): break
```

as a recursion over the loop variable `start` (`n` is `len(tokens)`;
`Nat` subtraction makes `n - 1` the Python `max(0, len(tokens)-1)` and
`max 1 (size - overlap)` the Python `max(1, size - overlap)`). -/
def swAux (n size overlap start : Nat) : List (Nat × Nat) :=
  if _h : start < n - 1 then
    if min n (start + size) = n then [(start, min n (start + size))]
    else (start, min n (start + size)) ::
      swAux n size overlap (start + max 1 (size - overlap))
  else []
termination_by n - 1 - start
decreasing_by
  have h1 : 1 ≤ max 1 (size - overlap) := Nat.le_max_left _ _
  omega

/-- `sliding_window` (`app/utils.py`), as a function of the token-list
length (the Python windows depend only on `len(tokens)`). -/
def sliding_window (n size overlap : Nat) : List (Nat × Nat) :=
  swAux n size overlap 0

/-- `md_title_path` (`app/utils.py`):
`" / ".join([p.strip() for p in path_parts if p.strip()])`. -/
def md_title_path (path_parts : List String) : String :=
  joinWith " / "
    ((path_parts.map (fun p => String.mk (trimWs p.data))).filter (fun p => p ≠ ""))

/-! ## `app/ingest.py`: tokenizing, slugs and chunking -/

/-- `simple_tokenize` (`app/ingest.py`): Python `s.split()` —
whitespace-delimited tokens, empty pieces discarded. -/
def simple_tokenize (s : String) : List String :=
  (wordsAux s.data []).map String.mk

/-- Model of the regex class `\w` on the ASCII range the sources use:
alphanumeric or underscore. -/
def isWordChar (c : Char) : Bool :=
  c.isAlphanum || c == '_'

/-- Model of `re.sub(r"[\s_]+", "-", s)`: replace every maximal run of
whitespace/underscore by a single hyphen.  The flag records whether we are
inside such a run. -/
def collapseWsRuns : Bool → List Char → List Char
  | _, [] => []
  | inRun, c :: cs =>
    if c.isWhitespace || c == '_' then
      if inRun then collapseWsRuns true cs else '-' :: collapseWsRuns true cs
    else c :: collapseWsRuns false cs

/-- Model of `re.sub(r"-\x7b2,\x7d", "-", s)`: every maximal run of hyphens
(a single hyphen included, which the regex leaves alone) comes out as a
single hyphen. -/
def collapseDashRuns : Bool → List Char → List Char
  | _, [] => []
  | inRun, c :: cs =>
    if c == '-' then
      if inRun then collapseDashRuns true cs else '-' :: collapseDashRuns true cs
    else c :: collapseDashRuns false cs

/-- Model of Python `s.strip("-")`. -/
def trimDashes (l : List Char) : List Char :=
  ((l.dropWhile (· == '-')).reverse.dropWhile (· == '-')).reverse

/-- `slugify_heading` (`app/ingest.py` lines 39-45):

```
s = s.strip().lower()
s = re.sub(r"[^\w\s-]", "", s)
s = re.sub(r"[\s_]+", "-", s)
s = re.sub(r"-\x7b2,\x7d", "-", s).strip("-")
```
-/
def slugify_heading (s : String) : String :=
  let s1 := (trimWs s.data).map Char.toLower
  let s2 := s1.filter (fun c => isWordChar c || c.isWhitespace || c == '-')
  String.mk (trimDashes (collapseDashRuns false (collapseWsRuns false s2)))

/-- The fields of a chunk record built by `chunk_markdown`
(`id` is assigned later, by the SQLite insert). -/
structure ChunkFields where
  source : String
  section_title : String
  anchor : String
  text : String
deriving DecidableEq

/-- Does the line start with `#` (Python `line.startswith("#")`)? -/
def startsHash (line : String) : Bool :=
  match line.data with
  | '#' :: _ => true
  | _ => false

/-- The section-building loop of `chunk_markdown` (`app/ingest.py` lines
51-72).  State: the remaining lines, the current `path_stack`, the current
`buf`; `flush_section` appends `("\n".join(buf), path_stack)` when `buf` is
nonempty.  On a heading line the buffer is flushed against the path *before*
the update, then `level` = number of leading `#`, `title` = rest trimmed,
`path_stack = path_stack[:max(0, level-1)] + [title]`, and the new buffer
starts with the heading line itself.  The input is the document's line list
(Python `md.splitlines()`). -/
def sectionsAux : List String → List String → List String → List (String × List String)
  | [], path_stack, buf =>
    if buf.isEmpty then [] else [(joinWith "\n" buf, path_stack)]
  | line :: rest, path_stack, buf =>
    if startsHash line then
      let stripped := line.data.dropWhile (· == '#')
      let level := line.data.length - stripped.length
      let title := String.mk (trimWs stripped)
      let path' := path_stack.take (level - 1) ++ [title]
      (if buf.isEmpty then [] else [(joinWith "\n" buf, path_stack)]) ++
        sectionsAux rest path' [line]
    else sectionsAux rest path_stack (buf ++ [line])

/-- `chunk_markdown` (`app/ingest.py` lines 47-89), taking the document as a
line list and the chunking configuration (`CHUNK_TOKENS`, `CHUNK_OVERLAP`,
defaults 900 and 120) as explicit arguments. -/
def chunk_markdown (lines : List String) (source : String)
    (chunkTokens chunkOverlap : Nat) : List ChunkFields :=
  (sectionsAux lines [] []).flatMap fun sec =>
    let toks := simple_tokenize sec.1
    let anchor := match sec.2.getLast? with
      | some t => slugify_heading t
      | none => ""
    (sliding_window toks.length chunkTokens chunkOverlap).map fun w =>
      { source := source
        section_title := md_title_path sec.2
        anchor := anchor
        text := joinWith " " ((toks.drop w.1).take (w.2 - w.1)) }

/-! ## `app/ingest.py`: metadata store and the ingestion pipeline -/

/-- A committed row of the SQLite `chunks` table
(`id INTEGER PRIMARY KEY, source, section_title, anchor, text`). -/
structure ChunkRow where
  id : Nat
  source : String
  section_title : String
  anchor : String
  text : String
deriving DecidableEq

/-- `SELECT id, source, section_title, anchor, text FROM chunks WHERE id=?`
followed by `fetchone()`: the first row with the given id, if any
(`id` is the primary key, so at most one row matches). -/
def storeGet (rows : List ChunkRow) (i : Nat) : Option ChunkRow :=
  rows.find? (fun r => r.id == i)

/-- The row the SQLite insert commits for chunk fields `ch` under
autoincrement id `i`. -/
def mkRow (i : Nat) (ch : ChunkFields) : ChunkRow :=
  { id := i, source := ch.source, section_title := ch.section_title,
    anchor := ch.anchor, text := ch.text }

/-- The insert loop of `ingest.main` (`app/ingest.py` lines 142-150): rows
are inserted in chunk order into the freshly created table, so SQLite's
`INTEGER PRIMARY KEY` autoincrement assigns ids `n+1, n+2, …` starting from
the number `n` of rows already present (0 for a full run). -/
def ingestRowsAux : Nat → List ChunkFields → List ChunkRow
  | _, [] => []
  | n, ch :: rest => mkRow (n + 1) ch :: ingestRowsAux (n + 1) rest

/-- The committed contents of the `chunks` table after the insert loop of a
full ingestion run (the table starts empty after `build_sqlite`). -/
def ingestRows (chunks : List ChunkFields) : List ChunkRow :=
  ingestRowsAux 0 chunks

/-- The embeddings appended to the FAISS index by `index.add(embs)`
(`app/ingest.py` lines 152-159): `embedder.encode(texts, …)` is
order-preserving (spec §6, Embedding Provider contract), so the index
content is the per-text embedding applied to the chunk texts in chunk
order. -/
def ingestEmbeddings (embedOne : String → List ℤ) (chunks : List ChunkFields) :
    List (List ℤ) :=
  chunks.map fun ch => embedOne ch.text

/-- The on-disk artifacts visible to queriers: the committed rows of
`chunks.sqlite`, the contents of `faiss.index`, and the `meta.json` chunk
count (`none` models an absent file; `some` the previously written one). -/
structure PersistState where
  dbRows : List ChunkRow
  faissIndex : Option (List (List ℤ))
  metaCount : Option Nat
deriving DecidableEq

/-- `ingest.main` (`app/ingest.py` lines 112-169) as a transformer of the
persisted state, with the collected chunk list abstracted as an argument
(file walking is external I/O) and the Embedding Provider as a fallible
call (`none` models `embedder.encode` raising).  Faithful to the source
order of effects: `build_sqlite()` drops and recreates the `chunks` table
(committed) *first*; on an empty chunk list the run returns early; rows are
inserted and committed *before* embedding; the FAISS index and `meta.json`
are only written after embedding succeeds, so an embedding failure
propagates leaving whatever was committed so far on disk. -/
def ingestMain (embed : List String → Option (List (List ℤ)))
    (all_chunks : List ChunkFields) (prev : PersistState) : PersistState :=
  let afterBuild : PersistState := { prev with dbRows := [] }
  if all_chunks.isEmpty then afterBuild
  else
    let afterInsert : PersistState := { afterBuild with dbRows := ingestRows all_chunks }
    match embed (all_chunks.map (fun ch => ch.text)) with
    | none => afterInsert
    | some embs =>
      { afterInsert with faissIndex := some embs, metaCount := some all_chunks.length }

/-! ## `app/rag.py`: vector-index search, the retriever, the prompt -/

/-- Inner product of two embedding vectors. -/
def innerProduct (a b : List ℤ) : ℤ :=
  (List.zipWith (· * ·) a b).sum

/-- The search ordering of the Vector Index: descending score, ties broken
by ascending ordinal. -/
def searchRel (a b : Nat × ℤ) : Prop :=
  b.2 < a.2 ∨ (a.2 = b.2 ∧ a.1 ≤ b.1)

instance : DecidableRel searchRel := fun a b =>
  inferInstanceAs (Decidable (b.2 < a.2 ∨ (a.2 = b.2 ∧ a.1 ≤ b.1)))

instance : IsTotal (Nat × ℤ) searchRel where
  total a b := by
    unfold searchRel
    rcases lt_trichotomy a.2 b.2 with h | h | h
    · exact Or.inr (Or.inl h)
    · rcases Nat.le_total a.1 b.1 with hn | hn
      · exact Or.inl (Or.inr ⟨h, hn⟩)
      · exact Or.inr (Or.inr ⟨h.symm, hn⟩)
    · exact Or.inl (Or.inl h)

instance : IsTrans (Nat × ℤ) searchRel where
  trans a b c hab hbc := by
    unfold searchRel at *
    rcases hab with h1 | ⟨h1, h1n⟩ <;> rcases hbc with h2 | ⟨h2, h2n⟩
    · exact Or.inl (h2.trans h1)
    · exact Or.inl (h2 ▸ h1)
    · exact Or.inl (h1 ▸ h2)
    · exact Or.inr ⟨h1.trans h2, h1n.trans h2n⟩

/-- Modelled from the spec: the Vector Index `search` operation
(`self.index.search(q, k)` in `RAG.retrieve`, backed by the external
`faiss.IndexFlatIP` library, whose code is not part of this repository).
Spec §4.3: scores are inner products between the query and the stored
embeddings, results are sorted descending by score with ties broken by
ascending ordinal, at most `k` are returned, and `k ≤ 0` or an empty index
yields an empty sequence rather than an error. -/
def searchIndex (index : List (List ℤ)) (q : List ℤ) (k : Int) : List (Nat × ℤ) :=
  let scored := index.enum.map fun p => (p.1, innerProduct q p.2)
  (scored.insertionSort searchRel).take k.toNat

/-- One hydrated retrieval result, as built by `RAG.retrieve`. -/
structure RetrievalResult where
  rank : Nat
  id : Nat
  source : String
  section_title : String
  anchor : String
  text : String
  score : ℤ
deriving DecidableEq

/-- The hydration loop of `RAG.retrieve` (`app/rag.py` lines 24-44):
`for rank, i in enumerate(idx[0])` walks the search results pairing each
ordinal with its score; each iteration looks up `id = i + 1` in SQLite and,
only if a row came back, appends a result carrying `rank + 1` — the
enumeration counter advances whether or not the row was found. -/
def hydrateAux (rows : List ChunkRow) : Nat → List (Nat × ℤ) → List RetrievalResult
  | _, [] => []
  | rank, (i, score) :: rest =>
    match storeGet rows (i + 1) with
    | some row =>
        { rank := rank + 1, id := row.id, source := row.source,
          section_title := row.section_title, anchor := row.anchor,
          text := row.text, score := score } :: hydrateAux rows (rank + 1) rest
    | none => hydrateAux rows (rank + 1) rest

/-- `RAG.retrieve` (`app/rag.py` lines 21-44), with the query's embedding
(produced by the external `SentenceTransformer`) passed directly. -/
def retrieve (rows : List ChunkRow) (index : List (List ℤ))
    (qEmb : List ℤ) (k : Int) : List RetrievalResult :=
  hydrateAux rows 0 (searchIndex index qEmb k)

/-- `RAG.build_prompt` (`app/rag.py` lines 46-61): the fixed instruction
lines, a blank, the question block, the `Context:` header, one
`[n] title — source` block per context item, then `Answer:`, joined by
newlines. -/
def build_prompt (question : String) (ctx : List RetrievalResult) : String :=
  let parts : List String :=
    [ "You answer only from the provided context. If info is missing, say so and suggest the closest section.",
      "Cite sources like [n] where n is the context item number.",
      "",
      "Question:\n" ++ question ++ "\n",
      "Context:" ]
  let ctxParts : List String :=
    ctx.enum.flatMap fun p =>
      [ "[" ++ toString (p.1 + 1) ++ "] " ++ p.2.section_title ++ " — " ++ p.2.source,
        p.2.text,
        "" ]
  joinWith "\n" (parts ++ ctxParts ++ ["Answer:"])

/-- `h` contains `s` as a contiguous substring. -/
def containsStr (h s : String) : Prop :=
  ∃ a b : String, h = a ++ s ++ b

/-- `h` ends with `s`. -/
def endsWithStr (h s : String) : Prop :=
  ∃ a : String, h = a ++ s

/-! ## Lemmas about the sliding window -/

/-- Every window emitted from loop position `start` starts no earlier than
`start`, starts strictly inside the `range` bound `n - 1`, and ends at
`min n (start' + size)` for its own start `start'`. -/
theorem swAux_mem_bounds (n size overlap : Nat) :
    ∀ start, ∀ w ∈ swAux n size overlap start,
      start ≤ w.1 ∧ w.1 < n - 1 ∧ w.2 = min n (w.1 + size) := by
  intro start
  induction start using swAux.induct n size overlap with
  | case1 x hx he =>
    intro w hw
    rw [swAux] at hw
    simp only [hx, dif_pos, he, if_pos, List.mem_singleton] at hw
    subst hw
    exact ⟨le_refl _, hx, by simp [he]⟩
  | case2 x hx he ih =>
    intro w hw
    rw [swAux] at hw
    simp [hx, he] at hw
    rcases hw with hw | hw
    · subst hw
      exact ⟨le_refl _, hx, rfl⟩
    · obtain ⟨h1, h2, h3⟩ := ih w hw
      refine ⟨?_, h2, h3⟩
      omega
  | case3 x hx =>
    intro w hw
    rw [swAux] at hw
    simp [hx] at hw

/-- The window list emitted from `start` is empty or begins with the window
at `start`. -/
theorem swAux_head (n size overlap start : Nat) :
    swAux n size overlap start = [] ∨
      ∃ t, swAux n size overlap start = (start, min n (start + size)) :: t := by
  rw [swAux]
  by_cases h : start < n - 1
  · by_cases he : min n (start + size) = n
    · exact Or.inr ⟨[], by simp [h, he]⟩
    · exact Or.inr ⟨swAux n size overlap (start + max 1 (size - overlap)), by simp [h, he]⟩
  · exact Or.inl (by simp [h])

/-- Consecutive windows overlap in exactly `overlap` token positions: for
adjacent windows `(s₁, e₁)` and `(s₂, e₂)` we have
`s₁ ≤ s₂ ≤ e₁ ≤ e₂` and `e₁ - s₂ = overlap`, so the indices shared by the
two half-open ranges are exactly the `overlap` positions of `[s₂, e₁)`. -/
theorem swAux_chain (n size overlap : Nat) (h : overlap < size) :
    ∀ start, List.Chain' (fun a b : Nat × Nat =>
      a.1 ≤ b.1 ∧ b.1 ≤ a.2 ∧ a.2 ≤ b.2 ∧ a.2 - b.1 = overlap)
      (swAux n size overlap start) := by
  intro start
  induction start using swAux.induct n size overlap with
  | case1 x hx he =>
    rw [swAux]
    simp [hx, he]
  | case2 x hx he ih =>
    rw [swAux]
    simp only [hx, he, dite_true, dite_eq_ite, if_true, if_false, eq_self_iff_true, dif_pos, if_neg, not_false_iff]
    refine List.Chain'.cons' ih ?_
    intro y hy
    rcases swAux_head n size overlap (x + max 1 (size - overlap)) with h0 | ⟨t, h0⟩
    · rw [h0] at hy
      simp at hy
    · rw [h0] at hy
      simp only [List.head?_cons, Option.mem_def, Option.some_inj] at hy
      subst hy
      refine ⟨?_, ?_, ?_, ?_⟩ <;> omega
  | case3 x hx =>
    rw [swAux]
    simp [hx]

/-! ## Claims about the chunk window geometry -/

/-- C4: for every token-list length and every configuration with
`overlap < size`, every emitted window spans at most `size` token positions,
and any two consecutive windows share exactly `overlap` token positions
(`s₁ ≤ s₂ ≤ e₁ ≤ e₂` with `e₁ - s₂ = overlap`). -/
theorem sliding_window_width_and_overlap :
    ∀ (n size overlap : Nat), overlap < size →
      (∀ w ∈ sliding_window n size overlap, w.2 - w.1 ≤ size) ∧
      List.Chain' (fun a b : Nat × Nat =>
        a.1 ≤ b.1 ∧ b.1 ≤ a.2 ∧ a.2 ≤ b.2 ∧ a.2 - b.1 = overlap)
        (sliding_window n size overlap) := by
  intro n size overlap h
  constructor
  · intro w hw
    obtain ⟨-, -, h3⟩ := swAux_mem_bounds n size overlap 0 w hw
    omega
  · exact swAux_chain n size overlap h 0

/-- Witness for C4 at the configured `W = 900`, `O = 120` on a 2000-token
section. -/
theorem sliding_window_width_and_overlap_witness :
    (∀ w ∈ sliding_window 2000 900 120, w.2 - w.1 ≤ 900) ∧
    List.Chain' (fun a b : Nat × Nat =>
      a.1 ≤ b.1 ∧ b.1 ≤ a.2 ∧ a.2 ≤ b.2 ∧ a.2 - b.1 = 120)
      (sliding_window 2000 900 120) :=
  sliding_window_width_and_overlap 2000 900 120 (by decide)

/-- C6: with `W = 900`, `O = 120` (step 780) a 50-token section yields the
single window `[0, 50)`; a 2000-token section yields exactly
`[0, 900)`, `[780, 1680)`, `[1560, 2000)`; and a section of at most one
token yields no windows at all. -/
theorem sliding_window_scenario :
    sliding_window 50 900 120 = [(0, 50)] ∧
    sliding_window 2000 900 120 = [(0, 900), (780, 1680), (1560, 2000)] ∧
    ∀ (n size overlap : Nat), n ≤ 1 → sliding_window n size overlap = [] := by
  refine ⟨by simp [sliding_window, swAux], by simp [sliding_window, swAux], ?_⟩
  intro n size overlap hn
  have h0 : ¬ (0 < n - 1) := by omega
  simp only [sliding_window]
  rw [swAux]
  simp [h0]

/-- Witness for C6's empty-section clause at a one-token section. -/
theorem sliding_window_scenario_witness :
    sliding_window 1 900 120 = [] :=
  sliding_window_scenario.2.2 1 900 120 (by decide)

/-- C7: `slugify_heading` (lowercase, trim, drop characters that are not
word characters, whitespace or hyphens, collapse whitespace/underscore runs
to one hyphen, collapse hyphen runs, trim hyphens) on the two specified
examples. -/
theorem slugify_heading_correct :
    slugify_heading "Section 1: Overview!" = "section-1-overview" ∧
    slugify_heading "--a--b--" = "a-b" :=
  ⟨by decide, by decide⟩

/-- C5: Vector Index search on degenerate input: `k ≤ 0` returns the empty
sequence, and a search over an empty index returns the empty sequence,
whatever `k` is (the model is a total function, so neither case is an
error). -/
theorem search_degenerate :
    ∀ (index : List (List ℤ)) (q : List ℤ) (k : Int),
      (k ≤ 0 → searchIndex index q k = []) ∧
      (index = [] → searchIndex index q k = []) := by
  intro index q k
  constructor
  · intro hk
    have h0 : k.toNat = 0 := by omega
    simp [searchIndex, h0]
  · intro h
    subst h
    simp [searchIndex]

/-- Witness for C5: `k = -1` on a nonempty index, and `k = 5` on the empty
index. -/
theorem search_degenerate_witness :
    searchIndex [[1]] [1] (-1) = [] ∧ searchIndex ([] : List (List ℤ)) [1] 5 = [] :=
  ⟨(search_degenerate [[1]] [1] (-1)).1 (by decide),
   (search_degenerate [] [1] 5).2 rfl⟩

/-! ## Lemmas about the whitespace tokenizer -/

/-- A `split()` run that already accumulated part of a word never produces
the empty token list. -/
theorem wordsAux_ne_nil_of_acc :
    ∀ (cs acc : List Char), acc ≠ [] → wordsAux cs acc ≠ [] := by
  intro cs
  induction cs with
  | nil =>
    intro acc hacc
    simp [wordsAux, hacc]
  | cons c cs ih =>
    intro acc hacc
    rw [wordsAux]
    by_cases hws : c.isWhitespace
    · simp only [hws, if_true]
      have : acc.isEmpty = false := by simp [hacc]
      simp [this]
    · simp only [hws, if_false, Bool.false_eq_true]
      exact ih (c :: acc) (by simp)

/-- Every token produced by the `split()` model is nonempty and free of
whitespace characters (given a whitespace-free accumulator). -/
theorem wordsAux_tokens_props :
    ∀ (cs acc : List Char), (∀ c ∈ acc, c.isWhitespace = false) →
      ∀ w ∈ wordsAux cs acc, w ≠ [] ∧ ∀ c ∈ w, c.isWhitespace = false := by
  intro cs
  induction cs with
  | nil =>
    intro acc hacc w hw
    rw [wordsAux] at hw
    by_cases he : acc.isEmpty
    · simp [he] at hw
    · simp only [he, if_false, Bool.false_eq_true, List.mem_singleton] at hw
      subst hw
      refine ⟨by simpa using he, ?_⟩
      intro c hc
      exact hacc c (List.mem_reverse.mp hc)
  | cons c cs ih =>
    intro acc hacc w hw
    rw [wordsAux] at hw
    by_cases hws : c.isWhitespace
    · simp only [hws, if_true] at hw
      by_cases he : acc.isEmpty
      · simp only [he, if_true] at hw
        exact ih [] (by simp) w hw
      · simp only [he, if_false, Bool.false_eq_true, List.mem_cons] at hw
        rcases hw with hw | hw
        · subst hw
          refine ⟨by simpa using he, ?_⟩
          intro d hd
          exact hacc d (List.mem_reverse.mp hd)
        · exact ih [] (by simp) w hw
    · simp only [hws, if_false, Bool.false_eq_true] at hw
      refine ih (c :: acc) ?_ w hw
      intro d hd
      rcases List.mem_cons.mp hd with hd | hd
      · subst hd
        simpa using hws
      · exact hacc d hd

/-- `sep.join` of a nonempty list starts with its first element. -/
theorem joinSep_cons_head (sep w : List Char) (ws : List (List Char)) :
    ∃ rest, joinSep sep (w :: ws) = w ++ rest := by
  cases ws with
  | nil => exact ⟨[], by simp [joinSep]⟩
  | cons w2 ws => exact ⟨sep ++ joinSep sep (w2 :: ws), by simp [joinSep, List.append_assoc]⟩

/-- Joining a token list whose head starts with a non-whitespace character
gives a nonempty string that still tokenizes to at least one token. -/
theorem join_tokens_nonempty (d : Char) (ds : List Char)
    (hd : d.isWhitespace = false) (ts : List String) :
    joinWith " " (String.mk (d :: ds) :: ts) ≠ "" ∧
    simple_tokenize (joinWith " " (String.mk (d :: ds) :: ts)) ≠ [] := by
  obtain ⟨rest, hj⟩ := joinSep_cons_head (" ".data) (d :: ds) (ts.map String.data)
  have hdat : joinWith " " (String.mk (d :: ds) :: ts) = String.mk (d :: (ds ++ rest)) := by
    simp only [joinWith, List.map_cons]
    rw [hj]
    rfl
  rw [hdat]
  constructor
  · intro hcontra
    have := congrArg String.data hcontra
    simp at this
  · rw [simple_tokenize]
    rw [wordsAux]
    simp only [hd, if_false, Bool.false_eq_true]
    have := wordsAux_ne_nil_of_acc (ds ++ rest) [d] (by simp)
    simp [this]

/-- C10 (implicit): every window emitted by the sliding-window generator
(under a positive window size, as configured) satisfies `s < e`, and every
chunk record produced by `chunk_markdown` on any input has a nonempty text
field that tokenizes to at least one whitespace-delimited token. -/
theorem chunker_emits_no_empty_chunks :
    ∀ (size overlap : Nat), 0 < size →
      (∀ n, ∀ w ∈ sliding_window n size overlap, w.1 < w.2) ∧
      (∀ (lines : List String) (source : String),
        ∀ ch ∈ chunk_markdown lines source size overlap,
          ch.text ≠ "" ∧ simple_tokenize ch.text ≠ []) := by
  intro size overlap hsize
  have hwin : ∀ n, ∀ w ∈ sliding_window n size overlap, w.1 < w.2 ∧ w.2 ≤ n := by
    intro n w hw
    obtain ⟨-, h2, h3⟩ := swAux_mem_bounds n size overlap 0 w hw
    omega
  refine ⟨fun n w hw => (hwin n w hw).1, ?_⟩
  intro lines source ch hch
  simp only [chunk_markdown, List.mem_flatMap, List.mem_map] at hch
  obtain ⟨sec, hsec, w, hw, rfl⟩ := hch
  set toks := simple_tokenize sec.1 with htoks
  obtain ⟨hlt, hle⟩ := hwin toks.length w hw
  have hslice : (toks.drop w.1).take (w.2 - w.1) ≠ [] := by
    intro hcontra
    have := congrArg List.length hcontra
    simp only [List.length_take, List.length_drop, List.length_nil] at this
    omega
  obtain ⟨t, ts, hts⟩ := List.exists_cons_of_ne_nil hslice
  have htmem : t ∈ toks := by
    have h1 : t ∈ (toks.drop w.1).take (w.2 - w.1) := by
      rw [hts]; exact List.mem_cons_self _ _
    exact List.mem_of_mem_drop (List.mem_of_mem_take h1)
  rw [htoks, simple_tokenize] at htmem
  obtain ⟨wt, hwt, hwteq⟩ := List.mem_map.mp htmem
  obtain ⟨hwne, hwchars⟩ := wordsAux_tokens_props sec.1.data [] (by simp) wt hwt
  obtain ⟨dchar, dsx, hdd⟩ := List.exists_cons_of_ne_nil hwne
  have hdns : dchar.isWhitespace = false := hwchars dchar (by rw [hdd]; exact List.mem_cons_self _ _)
  have ht : t = String.mk (dchar :: dsx) := by rw [← hwteq, hdd]
  rw [hts, ht]
  exact join_tokens_nonempty dchar dsx hdns ts

/-- Witness for C10 at the configured window size `W = 900`, `O = 120`. -/
theorem chunker_emits_no_empty_chunks_witness :
    (∀ n, ∀ w ∈ sliding_window n 900 120, w.1 < w.2) ∧
    (∀ (lines : List String) (source : String),
      ∀ ch ∈ chunk_markdown lines source 900 120,
        ch.text ≠ "" ∧ simple_tokenize ch.text ≠ []) :=
  chunker_emits_no_empty_chunks 900 120 (by decide)

/-! ## Claims about ingestion -/

/-- The autoincrementing insert loop leaves the row for id `n + p + 1` at
position `p`, carrying the fields of chunk `p`. -/
theorem ingestRowsAux_find? (chunks : List ChunkFields) :
    ∀ (n p : Nat) (h : p < chunks.length),
      (ingestRowsAux n chunks).find? (fun r => r.id == n + p + 1) =
        some (mkRow (n + p + 1) chunks[p]) := by
  induction chunks with
  | nil =>
    intro n p h
    simp at h
  | cons ch rest ih =>
    intro n p h
    cases p with
    | zero =>
      rw [ingestRowsAux]
      rw [List.find?_cons_of_pos _ (by simp [mkRow])]
      simp [mkRow]
    | succ q =>
      rw [ingestRowsAux]
      rw [List.find?_cons_of_neg _ (by simp [mkRow])]
      have hq : q < rest.length := by simpa using h
      have := ih (n + 1) q hq
      rw [show n + 1 + q + 1 = n + (q + 1) + 1 by omega] at this
      simpa using this

/-- C1: after one complete ingestion run over chunk list `chunks` with an
order-preserving Embedding Provider, for every ordinal `p < N` the
Metadata Store lookup `get (p+1)` returns a row whose id is `p + 1`, the
Vector Index contents are exactly the chunk texts embedded in chunk order,
and the embedding stored at ordinal `p` is the embedding of that very
row's text. -/
theorem ingest_ordinal_id_alignment :
    ∀ (f : String → List ℤ) (chunks : List ChunkFields) (prev : PersistState) (p : Nat),
      p < chunks.length →
      ∃ row : ChunkRow,
        storeGet (ingestMain (fun ts => some (ts.map f)) chunks prev).dbRows (p + 1) =
          some row ∧
        row.id = p + 1 ∧
        (ingestMain (fun ts => some (ts.map f)) chunks prev).faissIndex =
          some (ingestEmbeddings f chunks) ∧
        (ingestEmbeddings f chunks)[p]? = some (f row.text) := by
  intro f chunks prev p h
  have hne : chunks.isEmpty = false := by
    cases chunks
    · simp at h
    · rfl
  refine ⟨mkRow (p + 1) chunks[p], ?_, rfl, ?_, ?_⟩
  · have hdb : (ingestMain (fun ts => some (ts.map f)) chunks prev).dbRows =
        ingestRows chunks := by
      simp [ingestMain, hne]
    rw [hdb, storeGet, ingestRows]
    have := ingestRowsAux_find? chunks 0 p h
    simpa using this
  · simp [ingestMain, hne, ingestEmbeddings, List.map_map, Function.comp]
  · rw [ingestEmbeddings]
    rw [List.getElem?_map]
    rw [List.getElem?_eq_getElem h]
    rfl

/-- Witness for C1: a two-chunk run, checked at ordinal `p = 1`. -/
theorem ingest_ordinal_id_alignment_witness :
    ∃ row : ChunkRow,
      storeGet (ingestMain (fun ts => some (ts.map (fun s => [(s.length : ℤ)])))
          [⟨"a.md", "A", "a", "alpha beta"⟩, ⟨"a.md", "B", "b", "gamma"⟩]
          ⟨[], none, none⟩).dbRows (1 + 1) = some row ∧
      row.id = 1 + 1 ∧
      (ingestMain (fun ts => some (ts.map (fun s => [(s.length : ℤ)])))
          [⟨"a.md", "A", "a", "alpha beta"⟩, ⟨"a.md", "B", "b", "gamma"⟩]
          ⟨[], none, none⟩).faissIndex =
        some (ingestEmbeddings (fun s => [(s.length : ℤ)])
          [⟨"a.md", "A", "a", "alpha beta"⟩, ⟨"a.md", "B", "b", "gamma"⟩]) ∧
      (ingestEmbeddings (fun s => [(s.length : ℤ)])
          [⟨"a.md", "A", "a", "alpha beta"⟩, ⟨"a.md", "B", "b", "gamma"⟩])[1]? =
        some ((fun s => [(s.length : ℤ)]) row.text) :=
  ingest_ordinal_id_alignment (fun s => [(s.length : ℤ)])
    [⟨"a.md", "A", "a", "alpha beta"⟩, ⟨"a.md", "B", "b", "gamma"⟩]
    ⟨[], none, none⟩ 1 (by decide)

/-- C2 counterexample: an ingestion run whose Embedding Provider fails does
change the Metadata Store visible to queriers — `main` drops, recreates,
repopulates and commits `chunks.sqlite` before the embedding step, so the
failed run leaves the new rows in place of the old ones. -/
theorem ingest_abort_counterexample :
    (ingestMain (fun _ => none)
        [⟨"doc.md", "T", "t", "hello world"⟩]
        ⟨[⟨1, "old.md", "S", "s", "old text"⟩], some [[1]], some 1⟩).dbRows ≠
      [⟨1, "old.md", "S", "s", "old text"⟩] := by
  decide

/-- C2 (amended): on Embedding Provider failure the run aborts before
`faiss.write_index` and before the manifest write, so the Vector Index and
manifest visible to queriers are unchanged; the Metadata Store, however,
has already been dropped, recreated, repopulated with the run's rows and
committed before embedding began. -/
theorem ingest_abort_behavior :
    ∀ (embed : List String → Option (List (List ℤ)))
      (chunks : List ChunkFields) (prev : PersistState),
      chunks ≠ [] →
      embed (chunks.map fun ch => ch.text) = none →
      (ingestMain embed chunks prev).faissIndex = prev.faissIndex ∧
      (ingestMain embed chunks prev).metaCount = prev.metaCount ∧
      (ingestMain embed chunks prev).dbRows = ingestRows chunks := by
  intro embed chunks prev hne hfail
  have hni : chunks.isEmpty = false := by simp [hne]
  simp [ingestMain, hni, hfail]

/-- Witness for the amended C2 at a concrete failing run. -/
theorem ingest_abort_behavior_witness :
    (ingestMain (fun _ => none) [⟨"doc.md", "T", "t", "hello"⟩]
        ⟨[], some [[2]], some 1⟩).faissIndex = (⟨[], some [[2]], some 1⟩ : PersistState).faissIndex ∧
    (ingestMain (fun _ => none) [⟨"doc.md", "T", "t", "hello"⟩]
        ⟨[], some [[2]], some 1⟩).metaCount = (⟨[], some [[2]], some 1⟩ : PersistState).metaCount ∧
    (ingestMain (fun _ => none) [⟨"doc.md", "T", "t", "hello"⟩]
        ⟨[], some [[2]], some 1⟩).dbRows = ingestRows [⟨"doc.md", "T", "t", "hello"⟩] :=
  ingest_abort_behavior (fun _ => none) [⟨"doc.md", "T", "t", "hello"⟩]
    ⟨[], some [[2]], some 1⟩ (by decide) rfl

/-! ## Lemmas about the hydration loop of the retriever -/

/-- The hydration loop emits at most one result per search pair. -/
theorem hydrateAux_length_le (rows : List ChunkRow) :
    ∀ (l : List (Nat × ℤ)) (r : Nat), (hydrateAux rows r l).length ≤ l.length := by
  intro l
  induction l with
  | nil => intro r; simp [hydrateAux]
  | cons p rest ih =>
    intro r
    obtain ⟨i, score⟩ := p
    rw [hydrateAux]
    cases hs : storeGet rows (i + 1) with
    | some row =>
      simpa using Nat.succ_le_succ (ih (r + 1))
    | none =>
      simp only [List.length_cons]
      exact le_trans (ih (r + 1)) (Nat.le_succ _)

/-- The scores of the hydrated results are a sublist of the search scores,
in order. -/
theorem hydrateAux_scores_sublist (rows : List ChunkRow) :
    ∀ (l : List (Nat × ℤ)) (r : Nat),
      ((hydrateAux rows r l).map (fun a => a.score)).Sublist
        (l.map (fun p => p.2)) := by
  intro l
  induction l with
  | nil => intro r; simp [hydrateAux]
  | cons p rest ih =>
    intro r
    obtain ⟨i, score⟩ := p
    rw [hydrateAux]
    cases hs : storeGet rows (i + 1) with
    | some row =>
      simpa using List.Sublist.cons₂ score (ih (r + 1))
    | none =>
      exact List.Sublist.trans (ih (r + 1)) (List.sublist_cons_self _ _)

/-- Every hydrated result carries a rank strictly above the enumeration
counter the loop started from. -/
theorem hydrateAux_rank_lower (rows : List ChunkRow) :
    ∀ (l : List (Nat × ℤ)) (r : Nat), ∀ a ∈ hydrateAux rows r l, r < a.rank := by
  intro l
  induction l with
  | nil => intro r a ha; simp [hydrateAux] at ha
  | cons p rest ih =>
    intro r a ha
    obtain ⟨i, score⟩ := p
    rw [hydrateAux] at ha
    cases hs : storeGet rows (i + 1) with
    | some row =>
      rw [hs] at ha
      simp only [List.mem_cons] at ha
      rcases ha with ha | ha
      · subst ha; simp
      · exact Nat.lt_of_succ_lt (ih (r + 1) a ha)
    | none =>
      rw [hs] at ha
      exact Nat.lt_of_succ_lt (ih (r + 1) a ha)

/-- Ranks are strictly increasing along the hydrated result list. -/
theorem hydrateAux_rank_pairwise (rows : List ChunkRow) :
    ∀ (l : List (Nat × ℤ)) (r : Nat),
      (hydrateAux rows r l).Pairwise (fun a b => a.rank < b.rank) := by
  intro l
  induction l with
  | nil => intro r; simp [hydrateAux]
  | cons p rest ih =>
    intro r
    obtain ⟨i, score⟩ := p
    rw [hydrateAux]
    cases hs : storeGet rows (i + 1) with
    | some row =>
      refine List.Pairwise.cons ?_ (ih (r + 1))
      intro b hb
      simpa using hydrateAux_rank_lower rows rest (r + 1) b hb
    | none =>
      exact ih (r + 1)

/-- When every search pair hydrates, no result is dropped and the result at
position `i` carries rank `r + i + 1`. -/
theorem hydrateAux_all_found_rank (rows : List ChunkRow) :
    ∀ (l : List (Nat × ℤ)) (r : Nat),
      (∀ p ∈ l, (storeGet rows (p.1 + 1)).isSome) →
      ∀ (i : Nat) (a : RetrievalResult),
        (hydrateAux rows r l)[i]? = some a → a.rank = r + i + 1 := by
  intro l
  induction l with
  | nil =>
    intro r hall i a ha
    simp [hydrateAux] at ha
  | cons p rest ih =>
    intro r hall i a ha
    obtain ⟨i0, score⟩ := p
    have hhead : (storeGet rows (i0 + 1)).isSome := hall (i0, score) (List.mem_cons_self _ _)
    cases hs : storeGet rows (i0 + 1) with
    | none => rw [hs] at hhead; simp at hhead
    | some row =>
      rw [hydrateAux, hs] at ha
      cases i with
      | zero =>
        simp only [List.getElem?_cons_zero, Option.some_inj] at ha
        subst ha
        simp
      | succ j =>
        simp only [List.getElem?_cons_succ] at ha
        have := ih (r + 1) (fun p hp => hall p (List.mem_cons_of_mem _ hp)) j a ha
        omega

/-! ## Claims about the retriever -/

/-- C3 counterexample: with a store holding ids 1 and 3 but not 2, the
search returns ordinals 0, 1, 2 in order, the hydration of ordinal 1
(id 2) is silently omitted, yet the ranks of the two surviving results are
1 and 3 — so `results[1].rank ≠ 2` and rank numbering is not consecutive
over the survivors. -/
theorem retrieve_rank_gap_counterexample :
    ¬ (∀ i (h : i < (retrieve
          [⟨1, "a.md", "s", "", "one"⟩, ⟨3, "a.md", "s", "", "three"⟩]
          [[3], [2], [1]] [1] 3).length),
        ((retrieve
          [⟨1, "a.md", "s", "", "one"⟩, ⟨3, "a.md", "s", "", "three"⟩]
          [[3], [2], [1]] [1] 3).get ⟨i, h⟩).rank = i + 1) := by
  decide

/-- C3 (amended): `retrieve` silently omits search pairs whose hydration
finds no row — the call still succeeds — but the appended rank is the
enumeration index over *all* search results plus one, not the position
among survivors.  Hence ranks are strictly increasing along the returned
sequence, and `results[i].rank = i + 1` holds whenever every hydration
succeeds (in particular whenever the ordinal/id invariant holds), but not
in general when hydrations are omitted. -/
theorem retrieve_rank_semantics :
    ∀ (rows : List ChunkRow) (index : List (List ℤ)) (qEmb : List ℤ) (k : Int),
      (retrieve rows index qEmb k).Pairwise (fun a b => a.rank < b.rank) ∧
      ((∀ p ∈ searchIndex index qEmb k, (storeGet rows (p.1 + 1)).isSome) →
        ∀ i (h : i < (retrieve rows index qEmb k).length),
          ((retrieve rows index qEmb k).get ⟨i, h⟩).rank = i + 1) := by
  intro rows index qEmb k
  constructor
  · exact hydrateAux_rank_pairwise rows (searchIndex index qEmb k) 0
  · intro hall i h
    have hsome : (retrieve rows index qEmb k)[i]? =
        some ((retrieve rows index qEmb k).get ⟨i, h⟩) := by
      rw [List.getElem?_eq_getElem h, List.get_eq_getElem]
    have := hydrateAux_all_found_rank rows (searchIndex index qEmb k) 0 hall i
      ((retrieve rows index qEmb k).get ⟨i, h⟩) hsome
    simpa using this

/-- Witness for the amended C3: a complete two-row store, where the first
result indeed has rank 1. -/
theorem retrieve_rank_semantics_witness :
    ((retrieve [⟨1, "a.md", "s", "", "one"⟩, ⟨2, "a.md", "s", "", "two"⟩]
        [[2], [1]] [1] 2).get ⟨0, by decide⟩).rank = 0 + 1 :=
  (retrieve_rank_semantics [⟨1, "a.md", "s", "", "one"⟩, ⟨2, "a.md", "s", "", "two"⟩]
    [[2], [1]] [1] 2).2 (by decide) 0 (by decide)

/-- C9: for every store, index, query embedding and `k > 0`, `retrieve`
returns at most `k` results and the scores are non-increasing along the
returned sequence. -/
theorem retrieve_count_and_score_order :
    ∀ (rows : List ChunkRow) (index : List (List ℤ)) (qEmb : List ℤ) (k : Int),
      0 < k →
      ((retrieve rows index qEmb k).length : Int) ≤ k ∧
      ∀ i (h : i < (retrieve rows index qEmb k).length - 1),
        ((retrieve rows index qEmb k).get ⟨i + 1, by omega⟩).score ≤
          ((retrieve rows index qEmb k).get ⟨i, by omega⟩).score := by
  intro rows index qEmb k hk
  constructor
  · have h1 : (retrieve rows index qEmb k).length ≤ (searchIndex index qEmb k).length :=
      hydrateAux_length_le rows (searchIndex index qEmb k) 0
    have h2 : (searchIndex index qEmb k).length ≤ k.toNat := by
      simp only [searchIndex]
      exact List.length_take_le _ _
    omega
  · have hsorted : (searchIndex index qEmb k).Pairwise searchRel := by
      simp only [searchIndex]
      exact List.Pairwise.sublist (List.take_sublist _ _)
        (List.sorted_insertionSort searchRel _)
    have hscores : ((searchIndex index qEmb k).map (fun p => p.2)).Pairwise
        (fun x y : ℤ => y ≤ x) := by
      refine List.pairwise_map.mpr (hsorted.imp ?_)
      intro a b hab
      rcases hab with hab | ⟨hab, -⟩
      · exact le_of_lt hab
      · exact le_of_eq hab.symm
    have hout : ((retrieve rows index qEmb k).map (fun a => a.score)).Pairwise
        (fun x y : ℤ => y ≤ x) :=
      List.Pairwise.sublist (hydrateAux_scores_sublist rows (searchIndex index qEmb k) 0)
        hscores
    have hpw : (retrieve rows index qEmb k).Pairwise
        (fun a b => b.score ≤ a.score) := List.pairwise_map.mp hout
    have hchain := hpw.chain'
    intro i h
    exact (List.chain'_iff_get.mp hchain) i h

/-- Witness for C9 at a one-row store with `k = 2`. -/
theorem retrieve_count_and_score_order_witness :
    ((retrieve [⟨1, "a.md", "s", "", "one"⟩] [[1]] [1] 2).length : Int) ≤ 2 ∧
    ∀ i (h : i < (retrieve [⟨1, "a.md", "s", "", "one"⟩] [[1]] [1] 2).length - 1),
      ((retrieve [⟨1, "a.md", "s", "", "one"⟩] [[1]] [1] 2).get ⟨i + 1, by omega⟩).score ≤
        ((retrieve [⟨1, "a.md", "s", "", "one"⟩] [[1]] [1] 2).get ⟨i, by omega⟩).score :=
  retrieve_count_and_score_order [⟨1, "a.md", "s", "", "one"⟩] [[1]] [1] 2 (by decide)

/-! ## Claim about the prompt assembler -/

set_option maxRecDepth 8000

/-- C8: for every question `q`, `build_prompt q []` is exactly the two fixed
instruction lines, a blank, the question block with the literal question,
then the `Context:` header immediately followed by `Answer:`; in
particular it contains both instruction lines and the question, contains
`"Context:\nAnswer:"` (the header with zero `[n]` entries, directly
followed by the answer line), and ends with `"Answer:"`. -/
theorem build_prompt_empty_results :
    ∀ q : String,
      build_prompt q [] =
        "You answer only from the provided context. If info is missing, say so and suggest the closest section.\nCite sources like [n] where n is the context item number.\n\nQuestion:\n"
          ++ q ++ "\n\nContext:\nAnswer:" ∧
      containsStr (build_prompt q [])
        "You answer only from the provided context. If info is missing, say so and suggest the closest section." ∧
      containsStr (build_prompt q [])
        "Cite sources like [n] where n is the context item number." ∧
      containsStr (build_prompt q []) q ∧
      containsStr (build_prompt q []) "Context:\nAnswer:" ∧
      endsWithStr (build_prompt q []) "Answer:" := by
  intro q
  obtain ⟨l⟩ := q
  have key : build_prompt (String.mk l) [] =
      "You answer only from the provided context. If info is missing, say so and suggest the closest section.\nCite sources like [n] where n is the context item number.\n\nQuestion:\n"
        ++ String.mk l ++ "\n\nContext:\nAnswer:" := by
    show String.mk _ = String.mk _
    congr 1
    simp only [List.enum_nil, List.flatMap_nil, List.map_cons, List.map_nil, List.map_append,
      List.nil_append, List.cons_append, List.append_nil, joinSep, String.data_append,
      List.append_assoc]
  refine ⟨key, ?_, ?_, ?_, ?_, ?_⟩
  · refine ⟨"",
      "\nCite sources like [n] where n is the context item number.\n\nQuestion:\n"
        ++ String.mk l ++ "\n\nContext:\nAnswer:", ?_⟩
    rw [key]
    show String.mk _ = String.mk _
    congr 1
    try simp only [String.data_append, List.append_assoc, List.append_nil, List.nil_append]
    try rfl
  · refine ⟨"You answer only from the provided context. If info is missing, say so and suggest the closest section.\n",
      "\n\nQuestion:\n" ++ String.mk l ++ "\n\nContext:\nAnswer:", ?_⟩
    rw [key]
    show String.mk _ = String.mk _
    congr 1
    try simp only [String.data_append, List.append_assoc, List.append_nil, List.nil_append]
    try rfl
  · exact ⟨"You answer only from the provided context. If info is missing, say so and suggest the closest section.\nCite sources like [n] where n is the context item number.\n\nQuestion:\n",
      "\n\nContext:\nAnswer:", key⟩
  · refine ⟨"You answer only from the provided context. If info is missing, say so and suggest the closest section.\nCite sources like [n] where n is the context item number.\n\nQuestion:\n"
        ++ String.mk l ++ "\n\n", "", ?_⟩
    rw [key]
    show String.mk _ = String.mk _
    congr 1
    try simp only [String.data_append, List.append_assoc, List.append_nil, List.nil_append]
    try rfl
  · refine ⟨"You answer only from the provided context. If info is missing, say so and suggest the closest section.\nCite sources like [n] where n is the context item number.\n\nQuestion:\n"
        ++ String.mk l ++ "\n\nContext:\n", ?_⟩
    rw [key]
    show String.mk _ = String.mk _
    congr 1
    try simp only [String.data_append, List.append_assoc, List.append_nil, List.nil_append]
    try rfl

end DocChat
